import Mathlib

set_option linter.unusedVariables false

/-!
Verification of the OTP cipher core in `src/src/App.tsx`.

JavaScript numeric behaviour relevant to the cipher functions is modelled by
`JsNum`: an integer or NaN.  Out-of-bounds array access yields `undefined`,
and any arithmetic on `undefined` yields NaN, so `jsIndex` returns `.nan`
for a missing element.  The JS remainder operator `%` truncates toward zero
(the sign follows the dividend), which is `Int.tmod`.
-/

namespace OTP

/-- Model of a JS number as used by the cipher functions: an integer value or
NaN (arising from out-of-range indexing). -/
inductive JsNum where
  | num : Int → JsNum
  | nan : JsNum
deriving DecidableEq, Repr

/-- JS addition: NaN absorbs. -/
def jsAdd : JsNum → JsNum → JsNum
  | JsNum.num a, JsNum.num b => JsNum.num (a + b)
  | _, _ => JsNum.nan

/-- JS subtraction: NaN absorbs. -/
def jsSub : JsNum → JsNum → JsNum
  | JsNum.num a, JsNum.num b => JsNum.num (a - b)
  | _, _ => JsNum.nan

/-- JS remainder `%`: truncated-division remainder (`Int.tmod`); `x % 0` and
any NaN operand give NaN. -/
def jsMod : JsNum → JsNum → JsNum
  | JsNum.num a, JsNum.num b => if b = 0 then JsNum.nan else JsNum.num (a.tmod b)
  | _, _ => JsNum.nan

/-- JS array indexing `p[i]` inside arithmetic: an out-of-bounds access is
`undefined`, and arithmetic with `undefined` is NaN. -/
def jsIndex (l : List JsNum) (i : Nat) : JsNum :=
  (l.get? i).getD JsNum.nan

/-- Embedding of `const otpAdd = (m, p, mod) => m.map((v, i) => (v + p[i]) % mod)`
(src/src/App.tsx line 39). -/
def otpAdd (m p : List JsNum) (mod : JsNum) : List JsNum :=
  m.mapIdx fun i v => jsMod (jsAdd v (jsIndex p i)) mod

/-- Embedding of `const otpSub = (c, p, mod) => c.map((v, i) => ((v - p[i]) % mod + mod) % mod)`
(src/src/App.tsx line 40). -/
def otpSub (c p : List JsNum) (mod : JsNum) : List JsNum :=
  c.mapIdx fun i v => jsMod (jsAdd (jsMod (jsSub v (jsIndex p i)) mod) mod) mod

/-! ### Arithmetic helper lemmas for the round trip -/

theorem neg_tmod (a b : Int) : (-a).tmod b = -(a.tmod b) := by
  rw [Int.tmod_def, Int.tmod_def, Int.neg_tdiv, Int.mul_neg]
  ring

/-- A value strictly between `-m` and `m` is its own truncated remainder. -/
theorem tmod_self_of_abs_lt {x m : Int} (h1 : -m < x) (h2 : x < m) :
    x.tmod m = x := by
  rcases le_or_lt 0 x with hx | hx
  · exact Int.tmod_eq_of_lt hx h2
  · have h : (-x).tmod m = -x := Int.tmod_eq_of_lt (by omega) (by omega)
    have := neg_tmod (-x) m
    rw [h] at this
    simpa using this

/-- Elementwise round trip: `(((a + b) % M - b) % M + M) % M = a` for
`a, b ∈ [0, M)`, with JS truncated remainders. -/
theorem otp_roundtrip_elem {a b M : Int} (hM : 0 < M)
    (ha0 : 0 ≤ a) (ha : a < M) (hb0 : 0 ≤ b) (hb : b < M) :
    jsMod (jsAdd (jsMod (jsSub (jsMod (jsAdd (JsNum.num a) (JsNum.num b)) (JsNum.num M))
      (JsNum.num b)) (JsNum.num M)) (JsNum.num M)) (JsNum.num M) = JsNum.num a := by
  have hMne : M ≠ 0 := by omega
  simp only [jsAdd, jsSub, jsMod, if_neg hMne]
  have hc : (a + b).tmod M = (a + b) % M :=
    Int.tmod_eq_emod (by omega) (by omega)
  have hcr0 : 0 ≤ (a + b) % M := Int.emod_nonneg _ hMne
  have hcr1 : (a + b) % M < M := Int.emod_lt_of_pos _ hM
  rw [hc]
  have hd : ((a + b) % M - b).tmod M = (a + b) % M - b :=
    tmod_self_of_abs_lt (by omega) (by omega)
  rw [hd]
  have he : ((a + b) % M - b + M).tmod M = ((a + b) % M - b + M) % M :=
    Int.tmod_eq_emod (by omega) (by omega)
  rw [he]
  have : ((a + b) % M - b + M) % M = a := by
    rw [Int.add_emod_self, Int.sub_emod, Int.emod_emod_of_dvd _ dvd_rfl,
      ← Int.sub_emod, add_sub_cancel_right, Int.emod_eq_of_lt ha0 ha]
  rw [this]

/-- The fixed alphabet (src/src/App.tsx lines 22-23).  The TS string literal
escapes a backslash and a double quote; after `<>` the symbols are
backslash, double quote, apostrophe, and the four bracket characters
(written here by code point to avoid escaping issues). -/
def UNIFIED_ALPHABET : List Char :=
  "ABCDEFGHIJKLMNÑOPQRSTUVWXYZ0123456789 !?,.:;-_()@#$/+*=<>".toList ++
    [Char.ofNat 92, Char.ofNat 34, Char.ofNat 39, Char.ofNat 91, Char.ofNat 93,
     Char.ofNat 123, Char.ofNat 125]

/-- Uppercase table for the non-ASCII letters that can reach this program's
normalizer.  Models `String.prototype.toUpperCase` on the Spanish repertoire
the source handles; characters outside the table and outside `a`-`z` are left
unchanged. -/
def UPPER_TABLE : List (Char × Char) :=
  [('á', 'Á'), ('é', 'É'), ('í', 'Í'), ('ó', 'Ó'), ('ú', 'Ú'), ('ü', 'Ü'),
   ('ñ', 'Ñ')]

/-- Model of JS `toUpperCase` on one character: ASCII lowercase maps to
uppercase, the accented Spanish letters map via `UPPER_TABLE`, everything
else is unchanged. -/
def jsToUpperChar (c : Char) : Char :=
  if 97 ≤ c.toNat ∧ c.toNat ≤ 122 then Char.ofNat (c.toNat - 32)
  else (((UPPER_TABLE.find? fun e => e.1 == c).map Prod.snd).getD c)

/-- Canonical (NFD) decompositions for the precomposed characters in the
modelled repertoire: acute accent U+0301, diaeresis U+0308, tilde U+0303.
Every other character is its own decomposition.  Note `Ñ` (U+00D1)
decomposes to `N` followed by the combining tilde U+0303, and no character's
NFD output contains a precomposed character such as `Ñ`. -/
def NFD_TABLE : List (Char × List Char) :=
  [('Á', ['A', Char.ofNat 769]), ('É', ['E', Char.ofNat 769]),
   ('Í', ['I', Char.ofNat 769]), ('Ó', ['O', Char.ofNat 769]),
   ('Ú', ['U', Char.ofNat 769]), ('Ü', ['U', Char.ofNat 776]),
   ('Ñ', ['N', Char.ofNat 771]),
   ('á', ['a', Char.ofNat 769]), ('é', ['e', Char.ofNat 769]),
   ('í', ['i', Char.ofNat 769]), ('ó', ['o', Char.ofNat 769]),
   ('ú', ['u', Char.ofNat 769]), ('ü', ['u', Char.ofNat 776]),
   ('ñ', ['n', Char.ofNat 771])]

/-- Model of `String.prototype.normalize("NFD")` on one character. -/
def nfdChar (c : Char) : List Char :=
  ((NFD_TABLE.find? fun e => e.1 == c).map Prod.snd).getD [c]

/-- The regex class `[̀-ͯ]` of combining diacritical marks. -/
def isCombiningMark (c : Char) : Bool :=
  decide (768 ≤ c.toNat) && decide (c.toNat ≤ 879)

/-- Embedding of `normalizeInput` (src/src/App.tsx lines 26-34): uppercase, NFD-decompose
and strip combining marks, then keep only characters of the alphabet. -/
def normalizeInput (input alphabet : List Char) : List Char :=
  let s := input.map jsToUpperChar
  let s2 := (s.flatMap nfdChar).filter fun c => !(isCombiningMark c)
  s2.filter fun c => decide (c ∈ alphabet)

/-- JS `alphabet.indexOf(ch)`: first index of `ch`, or `-1` when absent. -/
def jsIndexOf (alphabet : List Char) (c : Char) : Int :=
  if c ∈ alphabet then (alphabet.indexOf c : Int) else -1

/-- Embedding of `toIndices` (src/src/App.tsx line 36). -/
def toIndices (text alphabet : List Char) : List JsNum :=
  text.map fun ch => JsNum.num (jsIndexOf alphabet ch)

/-- Embedding of `fromIndices` (src/src/App.tsx line 37): `arr.map(i => alphabet[i]).join("")`.
An out-of-range or NaN index gives `undefined`, which `join` renders as the
empty string, so such entries contribute nothing. -/
def fromIndices (arr : List JsNum) (alphabet : List Char) : List Char :=
  arr.filterMap fun v =>
    match v with
    | JsNum.num i => if 0 ≤ i then alphabet.get? i.toNat else none
    | JsNum.nan => none

/-- Embedding of `randomPad` (src/src/App.tsx lines 42-48).  The `Uint32Array` filled by
`crypto.getRandomValues` is passed explicitly as `buf` (its entries are
naturals below `2^32` and its length is the requested `len`); each entry is
reduced by `% alphabet.length` and rendered through `fromIndices`. -/
def randomPad (len : Nat) (alphabet : List Char) (buf : List Nat) : List Char :=
  let mod := alphabet.length
  let idx := buf.map fun n => n % mod
  fromIndices (idx.map fun (n : Nat) => JsNum.num (n : Int)) alphabet

/-! ### Session state (the `OTPApp` component's `useState` fields) -/

inductive ModeScreen where
  | encrypt
  | decrypt
deriving DecidableEq, Repr

inductive DecryptStep where
  | askPad
  | ready
deriving DecidableEq, Repr

inductive Tone where
  | ok
  | warn
  | err
deriving DecidableEq, Repr

/-- The `status` state: a message plus an optional tone. -/
structure Status where
  text : List Char
  tone : Option Tone
deriving DecidableEq, Repr

/-- The component state: one field per `useState` hook of `OTPApp`
(src/src/App.tsx lines 82-98).  `countdown` is in seconds, `none` for null. -/
structure AppState where
  modeScreen : Option ModeScreen
  decryptStep : DecryptStep
  padInput : List Char
  message : List Char
  cipher : List Char
  pad : List Char
  status : Status
  showEncryptResults : Bool
  countdown : Option Int
deriving DecidableEq, Repr

/-- Embedding of `resetAll` (src/src/App.tsx lines 111-120). -/
def resetAll (st : AppState) : AppState :=
  { st with
    message := []
    cipher := []
    pad := []
    padInput := []
    decryptStep := DecryptStep.askPad
    showEncryptResults := false
    countdown := none
    status := ⟨"Listo.".toList, none⟩ }

/-- Embedding of `onClearAll` (src/src/App.tsx lines 229-231). -/
def onClearAll (st : AppState) : AppState :=
  resetAll st

/-- The decrypt-flow length-mismatch diagnostic built at src/src/App.tsx
line 197, with both lengths interpolated. -/
def lengthMismatchMsg (clen plen : Nat) : List Char :=
  ("El pad debe tener la MISMA longitud. (cifrado=" ++ toString clen ++
    ", pad=" ++ toString plen ++ ")").toList

/-- Embedding of `onAcceptPadForDecrypt` (src/src/App.tsx lines 178-188). -/
def onAcceptPadForDecrypt (st : AppState) : AppState :=
  let pNorm := normalizeInput st.padInput UNIFIED_ALPHABET
  if pNorm.length = 0 then
    { st with status := ⟨"Pega primero el PAD / Clave.".toList, some Tone.err⟩ }
  else
    { st with
      pad := pNorm
      decryptStep := DecryptStep.ready
      status := ⟨"PAD listo. Ahora pega el texto cifrado y presiona Descifrar.".toList,
        some Tone.ok⟩ }

/-- Embedding of `onDecrypt` (src/src/App.tsx lines 191-209).  A thrown error is caught
and lands in `status` with the error tone; every other field is untouched on
the error paths. -/
def onDecrypt (st : AppState) : AppState :=
  if st.decryptStep ≠ DecryptStep.ready then
    { st with status := ⟨"Primero proporciona el PAD / Clave.".toList, some Tone.err⟩ }
  else
    let c := normalizeInput st.cipher UNIFIED_ALPHABET
    let p := st.pad
    if c.length = 0 then
      { st with status := ⟨"Pega el texto cifrado.".toList, some Tone.err⟩ }
    else if c.length ≠ p.length then
      { st with status := ⟨lengthMismatchMsg c.length p.length, some Tone.err⟩ }
    else
      let ci := toIndices c UNIFIED_ALPHABET
      let pi := toIndices p UNIFIED_ALPHABET
      let mi := otpSub ci pi (JsNum.num (UNIFIED_ALPHABET.length : Int))
      let plain := fromIndices mi UNIFIED_ALPHABET
      { st with
        message := plain
        status := ⟨"Descifrado recuperado. El mensaje se limpiará automáticamente en 5 minutos.".toList,
          some Tone.ok⟩
        countdown := some 300 }

/-- Embedding of `onEncrypt` (src/src/App.tsx lines 157-175), with the random buffer for
the freshly generated pad passed explicitly. -/
def onEncrypt (st : AppState) (buf : List Nat) : AppState :=
  let norm := normalizeInput st.message UNIFIED_ALPHABET
  if norm.length = 0 then
    { st with status := ⟨"Escribe el mensaje que quieres cifrar.".toList, some Tone.err⟩ }
  else
    let newPad := randomPad norm.length UNIFIED_ALPHABET buf
    let mi := toIndices norm UNIFIED_ALPHABET
    let pi := toIndices newPad UNIFIED_ALPHABET
    let ci := otpAdd mi pi (JsNum.num (UNIFIED_ALPHABET.length : Int))
    let ct := fromIndices ci UNIFIED_ALPHABET
    { st with
      pad := newPad
      cipher := ct
      showEncryptResults := true
      status := ⟨"Cifrado listo. Copia el pad y el texto cifrado.".toList, some Tone.ok⟩ }

/-- The countdown effect (src/src/App.tsx lines 212-220): it runs after every
change of `countdown`; a null countdown does nothing, a countdown that
reached zero triggers `resetAll`, a positive countdown schedules the next
one-second tick. -/
def applyCountdownEffect (st : AppState) : AppState :=
  match st.countdown with
  | none => st
  | some n => if n ≤ 0 then resetAll st else st

/-- One firing of the scheduled interval callback
`setCountdown((s) => (s ?? 1) - 1)` followed by the re-run of the countdown
effect on the changed state.  When `countdown` is null no interval is
scheduled, so a tick is a no-op. -/
def tick (st : AppState) : AppState :=
  match st.countdown with
  | none => st
  | some s => applyCountdownEffect { st with countdown := some (s - 1) }

theorem jsIndex_cons_succ (b : JsNum) (p : List JsNum) (i : Nat) :
    jsIndex (b :: p) (i + 1) = jsIndex p i := rfl

theorem otpAdd_cons (a b : JsNum) (m p : List JsNum) (mod : JsNum) :
    otpAdd (a :: m) (b :: p) mod = jsMod (jsAdd a b) mod :: otpAdd m p mod := by
  simp only [otpAdd, List.mapIdx_cons, jsIndex_cons_succ]
  rfl

theorem otpSub_cons (a b : JsNum) (m p : List JsNum) (mod : JsNum) :
    otpSub (a :: m) (b :: p) mod =
      jsMod (jsAdd (jsMod (jsSub a b) mod) mod) mod :: otpSub m p mod := by
  simp only [otpSub, List.mapIdx_cons, jsIndex_cons_succ]
  rfl

theorem otpAdd_nil (p : List JsNum) (mod : JsNum) : otpAdd [] p mod = [] := rfl

theorem otpSub_nil (p : List JsNum) (mod : JsNum) : otpSub [] p mod = [] := rfl

/-- Claim C1: for equal-length index lists `m`, `p` with all values in
`[0, M)` (and `0 < M`), decoding the encoding restores the message exactly:
`otpSub (otpAdd m p M) p M = m`.  The `+ M` before the second remainder keeps
every intermediate non-negative, so the JS truncated remainder introduces no
sign artifact. -/
theorem decode_encode_roundtrip (m p : List Int) (M : Int)
    (hlen : m.length = p.length) (hM : 0 < M)
    (hm : ∀ v ∈ m, 0 ≤ v ∧ v < M) (hp : ∀ v ∈ p, 0 ≤ v ∧ v < M) :
    otpSub (otpAdd (m.map JsNum.num) (p.map JsNum.num) (JsNum.num M))
      (p.map JsNum.num) (JsNum.num M) = m.map JsNum.num := by
  induction m generalizing p with
  | nil => simp [otpSub_nil, otpAdd_nil]
  | cons a m ih =>
    cases p with
    | nil => simp at hlen
    | cons b p =>
      have ha := hm a (List.mem_cons_self a m)
      have hb := hp b (List.mem_cons_self b p)
      simp only [List.map_cons, otpAdd_cons, otpSub_cons]
      rw [otp_roundtrip_elem hM ha.1 ha.2 hb.1 hb.2]
      congr 1
      exact ih p (by simpa using hlen)
        (fun v hv => hm v (List.mem_cons_of_mem _ hv))
        (fun v hv => hp v (List.mem_cons_of_mem _ hv))

/-- Witness for C1 at concrete input: message `[0, 5, 63]`, pad `[63, 0, 7]`,
modulus 64. -/
theorem decode_encode_roundtrip_witness :
    ([0, 5, 63] : List Int).length = ([63, 0, 7] : List Int).length ∧
    (0 : Int) < 64 ∧
    otpSub (otpAdd (([0, 5, 63] : List Int).map JsNum.num)
        (([63, 0, 7] : List Int).map JsNum.num) (JsNum.num 64))
      (([63, 0, 7] : List Int).map JsNum.num) (JsNum.num 64) =
      (([0, 5, 63] : List Int).map JsNum.num) :=
  ⟨rfl, by norm_num,
    decode_encode_roundtrip [0, 5, 63] [63, 0, 7] 64 rfl (by norm_num)
      (by intro v hv; fin_cases hv <;> norm_num)
      (by intro v hv; fin_cases hv <;> norm_num)⟩

/-! ### Normalizer lemmas (claims C4, C9) -/

theorem map_eq_self_of_fixed {α : Type} {f : α → α} {l : List α}
    (h : ∀ a ∈ l, f a = a) : l.map f = l := by
  induction l with
  | nil => rfl
  | cons a l ih =>
    simp only [List.map_cons]
    rw [h a (List.mem_cons_self a l), ih fun b hb => h b (List.mem_cons_of_mem _ hb)]

theorem flatMap_eq_self_of_singleton {α : Type} {f : α → List α} {l : List α}
    (h : ∀ a ∈ l, f a = [a]) : l.flatMap f = l := by
  induction l with
  | nil => rfl
  | cons a l ih =>
    simp only [List.flatMap_cons]
    rw [h a (List.mem_cons_self a l), ih fun b hb => h b (List.mem_cons_of_mem _ hb)]
    rfl

/-- No character decomposes to something containing the precomposed letter
`Ñ`: the table has no `Ñ` on any right-hand side, and `Ñ` itself is a table
key, so it never falls through to the identity default. -/
theorem enye_not_mem_nfdChar (c : Char) : 'Ñ' ∉ nfdChar c := by
  unfold nfdChar
  cases h : NFD_TABLE.find? fun e => e.1 == c with
  | none =>
    rw [List.find?_eq_none] at h
    have hne := h (('Ñ', ['N', Char.ofNat 771]) : Char × List Char) (by decide)
    show 'Ñ' ∉ [c]
    intro hmem
    rcases List.mem_singleton.mp hmem with rfl
    exact hne (by decide)
  | some e =>
    have he : e ∈ NFD_TABLE := List.mem_of_find?_eq_some h
    have hall : ∀ x ∈ NFD_TABLE, 'Ñ' ∉ x.2 := by decide
    show 'Ñ' ∉ e.2
    exact hall e he

/-- Every character of a normalized string is in the alphabet, comes out of
some character's decomposition, and is not a combining mark. -/
theorem normalizeInput_chars (input alphabet : List Char) :
    ∀ c ∈ normalizeInput input alphabet,
      c ∈ alphabet ∧ (∃ d, c ∈ nfdChar d) ∧ isCombiningMark c = false := by
  intro c hc
  replace hc : c ∈ (((input.map jsToUpperChar).flatMap nfdChar).filter
      fun ch => !(isCombiningMark ch)).filter (fun ch => decide (ch ∈ alphabet)) := hc
  rw [List.mem_filter] at hc
  obtain ⟨hc1, hmem⟩ := hc
  rw [List.mem_filter] at hc1
  obtain ⟨hc2, hcomb⟩ := hc1
  rw [List.mem_flatMap] at hc2
  obtain ⟨d, _, hd⟩ := hc2
  refine ⟨by simpa using hmem, ⟨d, hd⟩, ?_⟩
  simpa using hcomb

theorem alphabet_char_fixed : ∀ c ∈ UNIFIED_ALPHABET, c ≠ 'Ñ' →
    jsToUpperChar c = c ∧ nfdChar c = [c] ∧ isCombiningMark c = false := by
  decide

/-- A string of alphabet characters other than `Ñ` is a fixed point of the
normalizer. -/
theorem normalizeInput_fixed {y : List Char}
    (hy : ∀ c ∈ y, c ∈ UNIFIED_ALPHABET ∧ c ≠ 'Ñ') :
    normalizeInput y UNIFIED_ALPHABET = y := by
  have h1 : y.map jsToUpperChar = y :=
    map_eq_self_of_fixed fun c hc => (alphabet_char_fixed c (hy c hc).1 (hy c hc).2).1
  have h1b : y.flatMap nfdChar = y :=
    flatMap_eq_self_of_singleton fun c hc =>
      (alphabet_char_fixed c (hy c hc).1 (hy c hc).2).2.1
  have h2 : List.filter (fun ch => !(isCombiningMark ch)) y = y :=
    List.filter_eq_self.mpr fun a ha => by
      simpa using (alphabet_char_fixed a (hy a ha).1 (hy a ha).2).2.2
  have h3 : List.filter (fun ch => decide (ch ∈ UNIFIED_ALPHABET)) y = y :=
    List.filter_eq_self.mpr fun a ha => decide_eq_true (hy a ha).1
  show (((y.map jsToUpperChar).flatMap nfdChar).filter
      fun ch => !(isCombiningMark ch)).filter (fun ch => decide (ch ∈ UNIFIED_ALPHABET)) = y
  rw [h1, h1b, h2, h3]

/-- Claim C4: the normalizer is idempotent; for every input string `x`,
`normalizeInput (normalizeInput x A) A = normalizeInput x A` for the unified
alphabet `A`. -/
theorem normalize_idempotent (x : List Char) :
    normalizeInput (normalizeInput x UNIFIED_ALPHABET) UNIFIED_ALPHABET
      = normalizeInput x UNIFIED_ALPHABET := by
  apply normalizeInput_fixed
  intro c hc
  obtain ⟨hmem, ⟨d, hd⟩, _⟩ := normalizeInput_chars x UNIFIED_ALPHABET c hc
  exact ⟨hmem, fun h => enye_not_mem_nfdChar d (h ▸ hd)⟩

/-- Claim C9: `Ñ` is a member of the alphabet, yet no normalized output ever
contains it — NFD decomposes `Ñ`/`ñ` to `N`/`n` plus a combining tilde that
the mark-stripping step removes, so both letters normalize to `N` and `Ñ` is
unreachable through the normalizer. -/
theorem enye_unreachable :
    'Ñ' ∈ UNIFIED_ALPHABET ∧
    (∀ input : List Char, 'Ñ' ∉ normalizeInput input UNIFIED_ALPHABET) ∧
    normalizeInput ['Ñ'] UNIFIED_ALPHABET = ['N'] ∧
    normalizeInput ['ñ'] UNIFIED_ALPHABET = ['N'] := by
  refine ⟨by decide, ?_, by decide, by decide⟩
  intro input hmem
  obtain ⟨_, ⟨d, hd⟩, _⟩ := normalizeInput_chars input UNIFIED_ALPHABET _ hmem
  exact enye_not_mem_nfdChar d hd

/-- Concrete application of `enye_unreachable`: the normalization of `"AÑB"`
does not contain `Ñ`. -/
theorem enye_unreachable_witness :
    'Ñ' ∉ normalizeInput "AÑB".toList UNIFIED_ALPHABET :=
  enye_unreachable.2.1 "AÑB".toList

/-- Claim C2 evaluated on the code: `normalizeInput "canción NIÑO 123 !"`
returns `"CANCION NINO 123 !"` — the `Ñ` is decomposed and its tilde
stripped like any other diacritic — and therefore differs from the
`"CANCION NIÑO 123 !"` that the spec (and the code's own self-test at
src/src/App.tsx line 141) expects. -/
theorem normalize_scenarioB_divergence :
    normalizeInput "canción NIÑO 123 !".toList UNIFIED_ALPHABET
        = "CANCION NINO 123 !".toList ∧
    normalizeInput "canción NIÑO 123 !".toList UNIFIED_ALPHABET
        ≠ "CANCION NIÑO 123 !".toList :=
  ⟨by decide, by decide⟩

/-! ### Pad generation (claim C5) -/

theorem fromIndices_length {A : List Char} {l : List Int}
    (h : ∀ i ∈ l, 0 ≤ i ∧ i.toNat < A.length) :
    (fromIndices (l.map JsNum.num) A).length = l.length := by
  induction l with
  | nil => rfl
  | cons i l ih =>
    obtain ⟨h0, hlt⟩ := h i (List.mem_cons_self i l)
    have hrest := ih fun j hj => h j (List.mem_cons_of_mem _ hj)
    simp only [fromIndices, List.map_cons, List.filterMap_cons] at hrest ⊢
    rw [if_pos h0, List.get?_eq_get hlt]
    simpa using hrest

theorem fromIndices_mem {A : List Char} {arr : List JsNum} :
    ∀ c ∈ fromIndices arr A, c ∈ A := by
  intro c hc
  unfold fromIndices at hc
  rw [List.mem_filterMap] at hc
  obtain ⟨v, _, hv⟩ := hc
  cases v with
  | num i =>
    simp only [] at hv
    by_cases h0 : (0 : Int) ≤ i
    · rw [if_pos h0] at hv
      exact List.get?_mem hv
    · rw [if_neg h0] at hv
      cases hv
  | nan => cases hv

/-- Claim C5: for every requested length `n` (with the 32-bit random buffer
of that length supplied by `crypto.getRandomValues`), the generated pad has
length exactly `n`, every pad character belongs to the alphabet, and every
pad symbol index is in `[0, M)` for `M` the alphabet size. -/
theorem randomPad_length_and_range (len : Nat) (buf : List Nat)
    (hbuf : buf.length = len) :
    (randomPad len UNIFIED_ALPHABET buf).length = len ∧
    (∀ c ∈ randomPad len UNIFIED_ALPHABET buf, c ∈ UNIFIED_ALPHABET) ∧
    ∀ v ∈ toIndices (randomPad len UNIFIED_ALPHABET buf) UNIFIED_ALPHABET,
      ∃ k : Nat, v = JsNum.num (k : Int) ∧ k < UNIFIED_ALPHABET.length := by
  subst hbuf
  have hM : 0 < UNIFIED_ALPHABET.length := by decide
  have hrange : ∀ i ∈ (buf.map fun n => n % UNIFIED_ALPHABET.length).map
      (fun (n : Nat) => (n : Int)), 0 ≤ i ∧ i.toNat < UNIFIED_ALPHABET.length := by
    intro i hi
    rw [List.mem_map] at hi
    obtain ⟨n, hn, rfl⟩ := hi
    rw [List.mem_map] at hn
    obtain ⟨n0, _, rfl⟩ := hn
    exact ⟨Int.natCast_nonneg _, by simpa using Nat.mod_lt n0 hM⟩
  have hpad : randomPad buf.length UNIFIED_ALPHABET buf
      = fromIndices (((buf.map fun n => n % UNIFIED_ALPHABET.length).map
          (fun (n : Nat) => (n : Int))).map JsNum.num) UNIFIED_ALPHABET := by
    unfold randomPad
    rw [List.map_map]
    rfl
  refine ⟨?_, ?_, ?_⟩
  · rw [hpad, fromIndices_length hrange, List.length_map, List.length_map]
  · rw [hpad]
    exact fun c hc => fromIndices_mem c hc
  · intro v hv
    unfold toIndices at hv
    rw [List.mem_map] at hv
    obtain ⟨c, hc, rfl⟩ := hv
    have hcA : c ∈ UNIFIED_ALPHABET := by
      rw [hpad] at hc
      exact fromIndices_mem c hc
    refine ⟨UNIFIED_ALPHABET.indexOf c, ?_, List.indexOf_lt_length.mpr hcA⟩
    unfold jsIndexOf
    rw [if_pos hcA]

/-- Concrete application of `randomPad_length_and_range`: a three-entry
buffer yields a three-character in-alphabet pad. -/
theorem randomPad_length_and_range_witness :
    ([0, 65, 4294967295] : List Nat).length = 3 ∧
    (randomPad 3 UNIFIED_ALPHABET [0, 65, 4294967295]).length = 3 ∧
    ∀ c ∈ randomPad 3 UNIFIED_ALPHABET [0, 65, 4294967295], c ∈ UNIFIED_ALPHABET :=
  ⟨rfl, (randomPad_length_and_range 3 [0, 65, 4294967295] rfl).1,
    (randomPad_length_and_range 3 [0, 65, 4294967295] rfl).2.1⟩

/-! ### Session-state lemmas (claims C3, C6, C7, C8) -/

theorem resetAll_countdown_irrel (st : AppState) (x : Option Int) :
    resetAll { st with countdown := x } = resetAll st := rfl

theorem tick_eq (st : AppState) (n : Int) (h : st.countdown = some n) :
    tick st = if n - 1 ≤ 0 then resetAll { st with countdown := some (n - 1) }
      else { st with countdown := some (n - 1) } := by
  unfold tick applyCountdownEffect
  rw [h]

theorem tick_decrement (st : AppState) (n : Int) (h : st.countdown = some n)
    (hn : 1 < n) : tick st = { st with countdown := some (n - 1) } := by
  rw [tick_eq st n h, if_neg (by omega)]

theorem tick_last (st : AppState) (h : st.countdown = some 1) :
    tick st = resetAll st := by
  rw [tick_eq st 1 h, if_pos (by norm_num)]
  exact resetAll_countdown_irrel st _

theorem tick_iterate_reset :
    ∀ k : Nat, 0 < k → ∀ st : AppState, st.countdown = some (k : Int) →
      tick^[k] st = resetAll st := by
  intro k
  induction k with
  | zero => intro h; exact absurd h (lt_irrefl 0)
  | succ k ih =>
    intro _ st h
    rcases Nat.eq_zero_or_pos k with rfl | hkpos
    · rw [Function.iterate_one]
      exact tick_last st (by exact_mod_cast h)
    · rw [Function.iterate_succ_apply,
        tick_decrement st _ h (by exact_mod_cast Nat.succ_lt_succ hkpos)]
      have hcast : ((k + 1 : Nat) : Int) - 1 = (k : Int) := by push_cast; ring
      rw [hcast, ih hkpos _ rfl]
      exact resetAll_countdown_irrel st _

/-- Claim C7: with the session in `DecryptedActive(n)` (modelled by
`countdown = some n` as installed by a successful decrypt), a tick takes
`DecryptedActive(n)` to `DecryptedActive(n-1)` for `n > 1`, the tick from
`DecryptedActive(1)` resets the session, and 300 successive ticks from
`DecryptedActive(300)` reach the reset (`Idle`) state, in which plaintext,
pad, and ciphertext are all erased and no countdown remains. -/
theorem countdown_drives_to_idle (st : AppState) (n : Int)
    (h : st.countdown = some n) :
    (1 < n → tick st = { st with countdown := some (n - 1) }) ∧
    (n = 1 → tick st = resetAll st) ∧
    (n = 300 → tick^[300] st = resetAll st) ∧
    (resetAll st).message = [] ∧ (resetAll st).pad = [] ∧
    (resetAll st).cipher = [] ∧ (resetAll st).countdown = none := by
  refine ⟨fun hn => tick_decrement st n h hn,
    fun h1 => tick_last st (h1 ▸ h), fun h300 => ?_, rfl, rfl, rfl, rfl⟩
  apply tick_iterate_reset 300 (by norm_num) st
  rw [h, h300]
  norm_num

/-- A concrete decrypted session: pad, ciphertext and recovered message all
present, countdown at the full 300 seconds. -/
def decryptedState : AppState :=
  { modeScreen := some ModeScreen.decrypt
    decryptStep := DecryptStep.ready
    padInput := []
    message := "HI".toList
    cipher := "AB".toList
    pad := "XY".toList
    status := ⟨[], some Tone.ok⟩
    showEncryptResults := false
    countdown := some 300 }

/-- Concrete application of `countdown_drives_to_idle`: 300 ticks from the
concrete decrypted session reach the reset state with everything erased. -/
theorem countdown_drives_to_idle_witness :
    tick^[300] decryptedState = resetAll decryptedState ∧
    (resetAll decryptedState).message = [] ∧
    (resetAll decryptedState).pad = [] ∧
    (resetAll decryptedState).cipher = [] :=
  ⟨(countdown_drives_to_idle decryptedState 300 rfl).2.2.1 rfl,
    (countdown_drives_to_idle decryptedState 300 rfl).2.2.2.1,
    (countdown_drives_to_idle decryptedState 300 rfl).2.2.2.2.1,
    (countdown_drives_to_idle decryptedState 300 rfl).2.2.2.2.2.1⟩

/-- Claim C8: `clear` from any state returns the session to the reset
(`Idle`) state, erases every held value (message, cipher, pad, pad input),
cancels the countdown, and a subsequent tick has no effect on the reset
session. -/
theorem clear_resets_and_cancels (st : AppState) :
    onClearAll st = resetAll st ∧
    (onClearAll st).message = [] ∧ (onClearAll st).cipher = [] ∧
    (onClearAll st).pad = [] ∧ (onClearAll st).padInput = [] ∧
    (onClearAll st).countdown = none ∧
    tick (onClearAll st) = onClearAll st :=
  ⟨rfl, rfl, rfl, rfl, rfl, rfl, rfl⟩

/-- Claim C6: with the session in `PadAccepted` (`decryptStep = ready`, a
normalized pad stored), a decrypt whose normalized ciphertext is non-empty
but of a length different from the stored pad length fails with the
length-mismatch diagnostic citing both exact lengths, and every other field
of the session — pad, message, ciphertext, step, countdown — is left fully
unchanged (no plaintext or countdown is installed). -/
theorem onDecrypt_length_mismatch (st : AppState)
    (hstep : st.decryptStep = DecryptStep.ready)
    (hne : (normalizeInput st.cipher UNIFIED_ALPHABET).length ≠ 0)
    (hmm : (normalizeInput st.cipher UNIFIED_ALPHABET).length ≠ st.pad.length) :
    onDecrypt st = { st with status :=
      ⟨lengthMismatchMsg (normalizeInput st.cipher UNIFIED_ALPHABET).length
        st.pad.length, some Tone.err⟩ } := by
  unfold onDecrypt
  simp [hstep, hne, hmm]

/-- A session about to accept the length-10 pad of Scenario C. -/
def scenarioCStart : AppState :=
  { modeScreen := some ModeScreen.decrypt
    decryptStep := DecryptStep.askPad
    padInput := "ABCDEFGHIJ".toList
    message := []
    cipher := []
    pad := []
    status := ⟨"Listo.".toList, none⟩
    showEncryptResults := false
    countdown := none }

/-- Scenario C's `PadAccepted` session: the pad `"ABCDEFGHIJ"` (length 10)
has been accepted and the pasted ciphertext normalizes to `"HELLO"`
(length 5). -/
def scenarioCState : AppState :=
  { onAcceptPadForDecrypt scenarioCStart with cipher := "HELLO".toList }

/-- Concrete application of `onDecrypt_length_mismatch` to Scenario C:
cipher length 5 against pad length 10 produces exactly the diagnostic citing
5 and 10, and the pad, step, and countdown survive unchanged. -/
theorem onDecrypt_length_mismatch_witness :
    scenarioCState.pad.length = 10 ∧
    (normalizeInput scenarioCState.cipher UNIFIED_ALPHABET).length = 5 ∧
    onDecrypt scenarioCState = { scenarioCState with status :=
      ⟨lengthMismatchMsg 5 10, some Tone.err⟩ } :=
  ⟨by decide, by decide,
    onDecrypt_length_mismatch scenarioCState (by decide) (by decide) (by decide)⟩

/-- Claim C3 as stated is false: `otpAdd`/`otpSub` raise no error at all on
unequal-length operands — they are total and simply return a value.  At
`m = [0]`, `p = []`, modulus 64, both return the one-element list `[NaN]`
(the missing `p[0]` is `undefined` and the arithmetic yields NaN). -/
theorem otp_no_length_check :
    otpAdd [JsNum.num 0] [] (JsNum.num 64) = [JsNum.nan] ∧
    otpSub [JsNum.num 0] [] (JsNum.num 64) = [JsNum.nan] :=
  ⟨rfl, rfl⟩

/-- Claim C3, amended: the CipherEngine functions `otpAdd`/`otpSub` perform
no length check themselves — on any operands they return a list of the first
operand's length (NaN filling positions past the second operand) — and the
`LengthMismatch` error reporting both exact lengths is raised by the decrypt
flow (`onDecrypt`), which checks the normalized ciphertext length against
the stored pad length before calling `otpSub`. -/
theorem cipher_length_contract (m p : List JsNum) (mod : JsNum) (st : AppState)
    (hstep : st.decryptStep = DecryptStep.ready)
    (hne : (normalizeInput st.cipher UNIFIED_ALPHABET).length ≠ 0)
    (hmm : (normalizeInput st.cipher UNIFIED_ALPHABET).length ≠ st.pad.length) :
    (otpAdd m p mod).length = m.length ∧
    (otpSub m p mod).length = m.length ∧
    (∀ i : Nat, ∀ hpi : p.length ≤ i, ∀ him : i < m.length,
      (otpAdd m p mod).get? i
        = some (jsMod (jsAdd (m.get ⟨i, him⟩) JsNum.nan) mod)) ∧
    onDecrypt st = { st with status :=
      ⟨lengthMismatchMsg (normalizeInput st.cipher UNIFIED_ALPHABET).length
        st.pad.length, some Tone.err⟩ } := by
  refine ⟨List.length_mapIdx, List.length_mapIdx, fun i hpi him => ?_, ?_⟩
  · unfold otpAdd
    rw [List.get?_eq_get (by simpa using him)]
    congr 1
    rw [List.get_mapIdx]
    congr 1
    unfold jsIndex
    rw [List.get?_eq_none.mpr (by simpa using hpi)]
    rfl
  · unfold onDecrypt
    simp [hstep, hne, hmm]

/-- Concrete application of `cipher_length_contract`: unequal operands give
a defined result of the first operand's length, and Scenario C's session
yields the diagnostic with both lengths. -/
theorem cipher_length_contract_witness :
    (otpAdd [JsNum.num 1, JsNum.num 2] [JsNum.num 3] (JsNum.num 64)).length = 2 ∧
    onDecrypt scenarioCState = { scenarioCState with status :=
      ⟨lengthMismatchMsg 5 10, some Tone.err⟩ } :=
  ⟨(cipher_length_contract [JsNum.num 1, JsNum.num 2] [JsNum.num 3] (JsNum.num 64)
      scenarioCState (by decide) (by decide) (by decide)).1,
    (cipher_length_contract [JsNum.num 1, JsNum.num 2] [JsNum.num 3] (JsNum.num 64)
      scenarioCState (by decide) (by decide) (by decide)).2.2.2⟩

/-! ### Alphabet size and uniformity of the remainder reduction (claim C10) -/

theorem residue_filter_eq_image (k M r : Nat) (hM : 0 < M) (hr : r < M) :
    (Finset.range (k * M)).filter (fun n => n % M = r)
      = (Finset.range k).image fun i => i * M + r := by
  ext n
  simp only [Finset.mem_filter, Finset.mem_image, Finset.mem_range]
  constructor
  · rintro ⟨hlt, hmod⟩
    refine ⟨n / M, (Nat.div_lt_iff_lt_mul hM).mpr hlt, ?_⟩
    calc n / M * M + r = M * (n / M) + n % M := by rw [hmod, Nat.mul_comm]
      _ = n := Nat.div_add_mod n M
  · rintro ⟨i, hik, rfl⟩
    refine ⟨?_, ?_⟩
    · calc i * M + r < i * M + M := by omega
        _ = (i + 1) * M := by ring
        _ ≤ k * M := Nat.mul_le_mul_right M (Nat.succ_le_of_lt hik)
    · rw [Nat.mul_comm, Nat.mul_add_mod, Nat.mod_eq_of_lt hr]

theorem residue_count (k M r : Nat) (hM : 0 < M) (hr : r < M) :
    ((Finset.range (k * M)).filter fun n => n % M = r).card = k := by
  rw [residue_filter_eq_image k M r hM hr,
    Finset.card_image_of_injective _ ?_, Finset.card_range]
  intro a b hab
  have hab2 : a * M + r = b * M + r := hab
  have hmul : a * M = b * M := by omega
  exact Nat.eq_of_mul_eq_mul_right hM hmul

/-- Claim C10: the alphabet has exactly 64 distinct symbols (`M = 64`), and
since 64 divides `2^32` evenly, the pad generator's remainder reduction
`n % M` of uniform 32-bit values is exactly uniform over `[0, M)`: every
residue has exactly `2^26` preimages among the `2^32` possible buffer
entries, so the generic modulo-reduction bias does not occur for this
alphabet. -/
theorem alphabet64_mod_uniform :
    UNIFIED_ALPHABET.length = 64 ∧ UNIFIED_ALPHABET.Nodup ∧
    ∀ r : Nat, r < UNIFIED_ALPHABET.length →
      ((Finset.range (2 ^ 32)).filter
        (fun n => n % UNIFIED_ALPHABET.length = r)).card = 2 ^ 26 := by
  have h64 : UNIFIED_ALPHABET.length = 64 := by decide
  refine ⟨h64, by decide, fun r hr => ?_⟩
  rw [h64] at hr
  have h : (2 ^ 32 : Nat) = 2 ^ 26 * 64 := by norm_num
  rw [h64, h]
  exact residue_count (2 ^ 26) 64 r (by norm_num) hr

/-- Concrete application of `alphabet64_mod_uniform` at residue `r = 5`. -/
theorem alphabet64_mod_uniform_witness :
    (5 : Nat) < UNIFIED_ALPHABET.length ∧
    ((Finset.range (2 ^ 32)).filter
      (fun n => n % UNIFIED_ALPHABET.length = 5)).card = 2 ^ 26 :=
  ⟨by decide, alphabet64_mod_uniform.2.2 5 (by decide)⟩

end OTP

